import Mathlib

/-
Verification development for the blog indexer (src/indexer.py).

The program is embedded shallowly: Python strings are modelled as `List Char`
(`LC`), the post dictionary as a structure with one field per key the code
initialises (plus an association list for keys created by arbitrary section
headers), exceptions as `Option`, and the two regular expressions of the
excerpt pass as deterministic scanners, which is exact for these particular
patterns because neither requires backtracking.

Modelling notes on character classes: Python's `\s` / `str.strip()` match all
Unicode whitespace and `\w` / `\d` all Unicode word/digit characters; the
model restricts them to their ASCII parts (`isPySpace`, `isWordChar`,
`Char.isDigit`, `Char.toLower`), which is faithful on ASCII input.
-/

set_option maxRecDepth 10000

namespace Indexer

abbrev LC := List Char

/-- ASCII part of Python's whitespace class (`\s`, `str.strip`). -/
def isPySpace (c : Char) : Bool :=
  c = ' ' || c = '\t' || c = '\n' || c = '\r' || c = '\x0b' || c = '\x0c'

/-- ASCII part of Python's `\w` class. -/
def isWordChar (c : Char) : Bool :=
  c.isAlphanum || c = '_'

/-- Python's `str.lower` (ASCII part). -/
def lowerStr (l : LC) : LC := l.map Char.toLower

/-- Python's `str.strip()`: drop leading and trailing whitespace. -/
def pyStrip (l : LC) : LC :=
  ((l.dropWhile isPySpace).reverse.dropWhile isPySpace).reverse

/-- Python's `str.split(sep)` for a one-character separator
    (used as `content.split('\n')` on line 19 of indexer.py). -/
def splitOnChar (sep : Char) : LC → List LC
  | [] => [[]]
  | c :: rest =>
    if c = sep then [] :: splitOnChar sep rest
    else
      match splitOnChar sep rest with
      | l :: ls => (c :: l) :: ls
      | [] => [[c]]

/-- Model of `'\n'.join(...)` (line 31/42 of indexer.py). -/
def joinNl : List LC → LC
  | [] => []
  | [l] => l
  | l :: ls => l ++ '\n' :: joinNl ls

/-- Model of `line.replace('\\[', '[')` (line 37 of indexer.py): left-to-right,
    non-overlapping replacement of the two-character sequence backslash-bracket. -/
def unescapeLine : LC → LC
  | [] => []
  | [c] => [c]
  | c1 :: c2 :: rest =>
    if c1 = '\\' ∧ c2 = '[' then '[' :: unescapeLine rest
    else c1 :: unescapeLine (c2 :: rest)

/-- Model of `re.match(r'^(?<!\\)\[(\w+)\]$', line)` (line 26 of indexer.py):
    the whole line must be `[` word-characters (at least one) `]`.
    The look-behind `(?<!\\)` is vacuous because `re.match` anchors the match
    at position 0, where no preceding character exists. -/
def headerName : LC → Option LC
  | [] => none
  | c :: rest =>
    if c = '[' then
      let name := rest.takeWhile isWordChar
      if name ≠ [] ∧ rest.dropWhile isWordChar = [']'] then some name else none
    else none

/-- The post record built by `parse_post` (lines 10-17 of indexer.py).
    The Python dict's six initial keys are fields; keys created later by
    arbitrary section headers live in `extra`; `excerpt` (created on line 46)
    is a field initialised to the empty string, which is observationally
    equivalent because no code reads it before the assignment. -/
structure Post where
  path : LC
  title : LC
  thumbnail : LC
  content : LC
  date : LC
  category : LC
  excerpt : LC
  extra : List (LC × LC)
deriving DecidableEq

/-- Assignment into the `extra` association list (Python dict update:
    overwrite in place when the key exists, append otherwise). -/
def dictSet : List (LC × LC) → LC → LC → List (LC × LC)
  | [], k, v => [(k, v)]
  | (k', v') :: rest, k, v =>
    if k' = k then (k, v) :: rest else (k', v') :: dictSet rest k v

/-- Lookup in the `extra` association list (defaults to the empty string;
    only used on keys that are present). -/
def dictLookup : List (LC × LC) → LC → LC
  | [], _ => []
  | (k', v') :: rest, k => if k' = k then v' else dictLookup rest k

/-- Model of `post[key] = value` (line 31/42/46 of indexer.py). -/
def setField (p : Post) (k v : LC) : Post :=
  if k = "path".toList then { p with path := v }
  else if k = "title".toList then { p with title := v }
  else if k = "thumbnail".toList then { p with thumbnail := v }
  else if k = "content".toList then { p with content := v }
  else if k = "date".toList then { p with date := v }
  else if k = "category".toList then { p with category := v }
  else if k = "excerpt".toList then { p with excerpt := v }
  else { p with extra := dictSet p.extra k v }

/-- Model of `post[key]` read access. -/
def getField (p : Post) (k : LC) : LC :=
  if k = "path".toList then p.path
  else if k = "title".toList then p.title
  else if k = "thumbnail".toList then p.thumbnail
  else if k = "content".toList then p.content
  else if k = "date".toList then p.date
  else if k = "category".toList then p.category
  else if k = "excerpt".toList then p.excerpt
  else dictLookup p.extra k

/-- The initial post dict of lines 10-17 of indexer.py. -/
def initPost (filename : LC) : Post :=
  { path := "posts/".toList ++ filename
    title := []
    thumbnail := []
    content := []
    date := []
    category := []
    excerpt := []
    extra := [] }

/-- Loop state of the section scan: the dict under construction,
    `current_section` and `section_content`. -/
structure ParseState where
  post : Post
  cur : Option LC
  buf : List LC

/-- Lines 30-31 / 41-42 of indexer.py: `if current_section and section_content:
    post[current_section.lower()] = '\n'.join(section_content).strip()`.
    A present section name is a nonempty string (it matched `\w+`), so Python's
    truthiness test on it is just the `Option` test. -/
def saveSection (st : ParseState) : Post :=
  match st.cur with
  | some sec =>
    if st.buf ≠ [] then setField st.post (lowerStr sec) (pyStrip (joinNl st.buf))
    else st.post
  | none => st.post

/-- One iteration of the `for line in lines` loop (lines 23-38 of indexer.py). -/
def parseStep (st : ParseState) (line : LC) : ParseState :=
  match headerName line with
  | some name => { post := saveSection st, cur := some name, buf := [] }
  | none =>
    match st.cur with
    | some _ => { st with buf := st.buf ++ [unescapeLine line] }
    | none => st

/-- The section-scanning part of `parse_post` (lines 19-42 of indexer.py),
    i.e. the post record before excerpt generation and validation. -/
def parseSections (content filename : LC) : Post :=
  saveSection ((splitOnChar '\n' content).foldl parseStep
    { post := initPost filename, cur := none, buf := [] })

/-- Scanner for `re.sub(r'<[^>]*>', '', ...)`: given the text after a `<`,
    drop everything up to and including the first `>`, if any. -/
def dropThroughGt : LC → Option LC
  | [] => none
  | c :: rest => if c = '>' then some rest else dropThroughGt rest

/-- Helper for `\s*`: drop a maximal run of whitespace. -/
def dropWsStar : LC → LC
  | [] => []
  | c :: rest => if isPySpace c then dropWsStar rest else c :: rest

/-- Helper for `"[^"]*"`: drop everything up to and including the first `"`. -/
def dropToQuote : LC → Option LC
  | [] => none
  | c :: rest => if c = '"' then some rest else dropToQuote rest

/-- Match of the pattern `<img\s+"[^"]*">` (line 45 of indexer.py) at the head
    of the text; on success returns the remainder after the matched tag.
    The pattern is deterministic: `\s+` must stop at the first non-space
    (which must be `"`), `[^"]*` at the first quote (which must be followed
    by `>`); no backtracking can succeed otherwise. -/
def matchImgTag : LC → Option LC
  | c1 :: c2 :: c3 :: c4 :: c5 :: rest =>
    if c1 = '<' ∧ c2 = 'i' ∧ c3 = 'm' ∧ c4 = 'g' ∧ isPySpace c5 then
      match dropWsStar rest with
      | c6 :: rest2 =>
        if c6 = '"' then
          match dropToQuote rest2 with
          | some (c7 :: rest3) => if c7 = '>' then some rest3 else none
          | _ => none
        else none
      | [] => none
    else none
  | _ => none

/-- Model of `re.sub(r'<img\s+"[^"]*">', '', s)` (line 45 of indexer.py): left-to-right
    scan, each non-overlapping leftmost match deleted, scan resumed after it.
    Structural recursion on a fuel argument; each step consumes at least one
    character, so fuel equal to the input length (see `stripImg`) never runs
    out and the 0-fuel equation is unreachable (`stripImgN_fuel` below). -/
def stripImgN : Nat → LC → LC
  | 0, l => l
  | n + 1, l =>
    match matchImgTag l with
    | some rest => stripImgN n rest
    | none =>
      match l with
      | [] => []
      | c :: rest => c :: stripImgN n rest

/-- Model of line 45: `content_without_images = re.sub(...)` on the full content. -/
def stripImg (l : LC) : LC := stripImgN l.length l

/-- Model of `re.sub(r'<[^>]*>', '', s)` (line 47 of indexer.py): at each `<` that has
    a later `>`, delete through the first such `>`; a `<` with no later `>`
    matches nothing, and then no later position can match either (every match
    needs a `>`). Fuel as in `stripImgN`. -/
def stripAngleN : Nat → LC → LC
  | 0, l => l
  | n + 1, l =>
    match l with
    | [] => []
    | c :: rest =>
      if c = '<' then
        match dropThroughGt rest with
        | some rest2 => stripAngleN n rest2
        | none => c :: rest
      else c :: stripAngleN n rest

/-- Model of line 47: `post['excerpt'] = re.sub(r'<[^>]*>', '', post['excerpt'])`. -/
def stripAngle (l : LC) : LC := stripAngleN l.length l

/-- Lines 44-49 of indexer.py: the excerpt of a content string, following the
    code's order of operations exactly (strip image tags from the full text,
    take 150 characters, strip whitespace, then strip remaining `<...>` tags,
    then append the ellipsis when the image-stripped text is longer than 150). -/
def mkExcerpt (c : LC) : LC :=
  let content_without_images := stripImg c
  let e1 := pyStrip (content_without_images.take 150)
  let e2 := stripAngle e1
  if 150 < content_without_images.length then e2 ++ "...".toList else e2

/-- The excerpt before the optional ellipsis marker. -/
def excerptBase (c : LC) : LC :=
  stripAngle (pyStrip ((stripImg c).take 150))

/-- Line 46/47/49 of indexer.py as a dict update. -/
def withExcerpt (p : Post) : Post :=
  setField p "excerpt".toList (mkExcerpt p.content)

/-- Model of `parse_post` (lines 8-55 of indexer.py). `none` models the raised
    `ValueError` of line 53. -/
def parse_post (content filename : LC) : Option Post :=
  let p := withExcerpt (parseSections content filename)
  if p.title = [] ∨ p.date = [] ∨ p.category = [] then none else some p

/-- Decimal value of a digit string. -/
def decimalVal (l : LC) : Nat :=
  l.foldl (fun a c => a * 10 + (c.toNat - '0'.toNat)) 0

/-- All characters are ASCII digits. -/
def allDigits (l : LC) : Bool := l.all Char.isDigit

/-- CPython strptime accepts `%m` as `1[0-2]|0[1-9]|[1-9]`:
    one or two digits with value 1..12 (and never `00`). -/
def monthFieldOk (l : LC) : Bool :=
  allDigits l && decide (l.length = 1 ∨ l.length = 2)
    && decide (1 ≤ decimalVal l) && decide (decimalVal l ≤ 12)

/-- CPython strptime accepts `%d` as `3[01]|[12]\d|0[1-9]|[1-9]`:
    one or two digits with value 1..31 (and never `00`). -/
def dayFieldOk (l : LC) : Bool :=
  allDigits l && decide (l.length = 1 ∨ l.length = 2)
    && decide (1 ≤ decimalVal l) && decide (decimalVal l ≤ 31)

/-- CPython strptime accepts `%Y` as exactly four digits; the year must be at
    least `datetime.MINYEAR = 1`. -/
def yearFieldOk (l : LC) : Bool :=
  allDigits l && decide (l.length = 4) && decide (1 ≤ decimalVal l)

/-- Gregorian leap year, as `datetime` uses. -/
def isLeap (y : Nat) : Bool :=
  decide (y % 4 = 0) && (decide (y % 100 ≠ 0) || decide (y % 400 = 0))

/-- Days in a month, as `datetime` validates them. -/
def daysInMonth (y m : Nat) : Nat :=
  if m = 2 then (if isLeap y then 29 else 28)
  else if m = 4 ∨ m = 6 ∨ m = 9 ∨ m = 11 then 30 else 31

/-- Model of `datetime.strptime(s, '%m/%d/%Y')` (line 60 of indexer.py), returning
    `(year, month, day)`: the string must be exactly month `/` day `/` year
    with the CPython field regexes above, and the day must exist in the month.
    Since `/` is not a digit, this is equivalent to splitting on `/`. -/
def parseDate (s : LC) : Option (Nat × Nat × Nat) :=
  match splitOnChar '/' s with
  | [ms, ds, ys] =>
    if monthFieldOk ms && dayFieldOk ds && yearFieldOk ys then
      let m := decimalVal ms
      let d := decimalVal ds
      let y := decimalVal ys
      if d ≤ daysInMonth y m then some (y, m, d) else none
    else none
  | _ => none

/-- Encoding of a calendar date as a single number; strictly monotone in the
    lexicographic (year, month, day) order `datetime` comparison uses,
    because month ≤ 12 and day ≤ 31. -/
def dateVal : Nat × Nat × Nat → Nat
  | (y, m, d) => y * 10000 + m * 100 + d

/-- Sort key of a date string (only used under the guard that it parses). -/
def dateKeyD (s : LC) : Nat :=
  ((parseDate s).map dateVal).getD 0

/-- Model of `sorted(posts, key=..., reverse=True)` (line 60): Python's sort is stable,
    and with `reverse=True` equal keys still keep their input order, so it is
    the stable descending sort: `p` may precede `q` exactly when
    `key q ≤ key p`. -/
def postLe (p q : Post) : Prop := dateKeyD q.date ≤ dateKeyD p.date

instance : DecidableRel postLe := fun _ _ => Nat.decLe _ _

instance : IsTotal Post postLe := ⟨fun _ _ => Nat.le_total _ _⟩

instance : IsTrans Post postLe := ⟨fun _ _ _ h1 h2 => Nat.le_trans h2 h1⟩

/-- The stable descending sort of line 60 of indexer.py. -/
def sortPosts (posts : List Post) : List Post :=
  List.insertionSort postLe posts

/-- Summary stored in `chrono.json` entries (lines 68-74 of indexer.py). -/
structure ChronoSummary where
  path : LC
  title : LC
  excerpt : LC
  thumbnail : LC
  category : LC
deriving DecidableEq

/-- Summary stored in `catalog.json` entries (lines 84-90 of indexer.py). -/
structure CatalogSummary where
  path : LC
  title : LC
  excerpt : LC
  thumbnail : LC
  date : LC
deriving DecidableEq

/-- Projection of a post for a chrono entry. -/
def chronoSummary (p : Post) : ChronoSummary :=
  ⟨p.path, p.title, p.excerpt, p.thumbnail, p.category⟩

/-- Projection of a post for a catalog entry. -/
def catalogSummary (p : Post) : CatalogSummary :=
  ⟨p.path, p.title, p.excerpt, p.thumbnail, p.date⟩

/-- One step of the grouping loops (lines 63-74 and 79-90 of indexer.py): a
    Python dict keeps insertion order, so it is an association list; a new key
    is appended at the end, an existing key has the value appended to its list. -/
def groupAdd {β : Type} : List (LC × List β) → LC → β → List (LC × List β)
  | [], k, v => [(k, [v])]
  | (k', vs) :: rest, k, v =>
    if k' = k then (k', vs ++ [v]) :: rest else (k', vs) :: groupAdd rest k v

/-- The grouping loops of `generate_indexes`, generic in the grouping key and
    the summary projection (the code writes the same loop twice, once with
    `date`/chrono summaries and once with `category`/catalog summaries). -/
def groupFold {β : Type} (key : Post → LC) (sum : Post → β)
    (posts : List Post) : List (LC × List β) :=
  posts.foldl (fun m p => groupAdd m (key p) (sum p)) []

/-- The list of summaries grouped under a key (empty when the key is absent). -/
def bucket {β : Type} : List (LC × List β) → LC → List β
  | [], _ => []
  | (k', vs) :: rest, k => if k' = k then vs else bucket rest k

/-- Model of `generate_indexes` (lines 57-92 of indexer.py). `chrono` is the list of
    `{'date': date, 'posts': posts}` entries in dict insertion order; `catalog`
    is the category dict in insertion order. `none` models the `ValueError`
    that `datetime.strptime` raises from inside `sorted` when some post's date
    does not parse (the sort calls the key function on every element). -/
def generate_indexes (posts : List Post) :
    Option (List (LC × List ChronoSummary) × List (LC × List CatalogSummary)) :=
  if posts.all (fun p => (parseDate p.date).isSome) then
    let sorted := sortPosts posts
    some (groupFold (fun p => p.date) chronoSummary sorted,
          groupFold (fun p => p.category) catalogSummary sorted)
  else none

/-- Scan for a full match of the image-tag pattern anywhere in a string. -/
def containsImgTag : LC → Bool
  | [] => false
  | c :: rest => (matchImgTag (c :: rest)).isSome || containsImgTag rest

/-- A minimal post record used for concrete index-builder inputs. -/
def demoPost (name dt cat : String) : Post :=
  { path := ("posts/" ++ name).toList
    title := name.toList
    thumbnail := []
    content := []
    date := dt.toList
    category := cat.toList
    excerpt := []
    extra := [] }

/-- The three-post example of the specification: dates 01/05/2024,
    03/01/2024, 01/05/2024 in input order. -/
def demoPosts : List Post :=
  [demoPost "a" "01/05/2024" "X", demoPost "b" "03/01/2024" "X",
   demoPost "c" "01/05/2024" "Y"]

/-- The chrono output the specification's example predicts for `demoPosts`. -/
def demoChrono : List (LC × List ChronoSummary) :=
  [("03/01/2024".toList, [chronoSummary (demoPost "b" "03/01/2024" "X")]),
   ("01/05/2024".toList, [chronoSummary (demoPost "a" "01/05/2024" "X"),
                          chronoSummary (demoPost "c" "01/05/2024" "Y")])]

/-- The catalog output for `demoPosts` (newest-first inside each category). -/
def demoCatalog : List (LC × List CatalogSummary) :=
  [("X".toList, [catalogSummary (demoPost "b" "03/01/2024" "X"),
                 catalogSummary (demoPost "a" "01/05/2024" "X")]),
   ("Y".toList, [catalogSummary (demoPost "c" "01/05/2024" "Y")])]

/- ------------------------------------------------------------------ -/
/- Theorems.                                                           -/
/- ------------------------------------------------------------------ -/

theorem setField_excerpt_def (p : Post) (v : LC) :
    setField p "excerpt".toList v = { p with excerpt := v } := rfl

theorem setField_title_def (p : Post) (v : LC) :
    setField p "title".toList v = { p with title := v } := rfl

theorem setField_date_def (p : Post) (v : LC) :
    setField p "date".toList v = { p with date := v } := rfl

theorem setField_category_def (p : Post) (v : LC) :
    setField p "category".toList v = { p with category := v } := rfl

theorem setField_content_def (p : Post) (v : LC) :
    setField p "content".toList v = { p with content := v } := rfl

theorem withExcerpt_title (p : Post) : (withExcerpt p).title = p.title := rfl

theorem withExcerpt_date (p : Post) : (withExcerpt p).date = p.date := rfl

theorem withExcerpt_category (p : Post) : (withExcerpt p).category = p.category := rfl

theorem withExcerpt_content (p : Post) : (withExcerpt p).content = p.content := rfl

theorem withExcerpt_path (p : Post) : (withExcerpt p).path = p.path := rfl

theorem withExcerpt_excerpt (p : Post) : (withExcerpt p).excerpt = mkExcerpt p.content := rfl

theorem parse_post_eq_some {text fn : LC} {p : Post}
    (h : parse_post text fn = some p) :
    p = withExcerpt (parseSections text fn) := by
  simp only [parse_post] at h
  split at h
  · exact absurd h (by simp)
  · exact (Option.some_inj.mp h).symm

/-- C1 (counterexample): an input whose `[Date]` section is `soon` — which does
    not conform to month/day/year — parses successfully: `parse_post` returns a
    `Post` whose date is unparseable, so the failure is not raised during
    parsing. -/
theorem parse_post_accepts_unparseable_date :
    (parse_post "[Title]\nT\n[Date]\nsoon\n[Category]\nC".toList "a.txt".toList).map
      (fun p => (parseDate p.date).isSome) = some false := by rfl

/-- C1 (amended): `parse_post` validates only non-emptiness of the required
    fields, not the date format; a post with an unparseable non-empty date
    passes parsing and reaches the Index Builder, whose sort is where the
    failure surfaces: `generate_indexes` fails exactly when some input post's
    date does not parse as month/day/year. -/
theorem generate_indexes_none_iff_unparseable_date (posts : List Post) :
    generate_indexes posts = none ↔ ∃ p ∈ posts, parseDate p.date = none := by
  unfold generate_indexes
  split
  · rename_i hall
    simp only [List.all_eq_true] at hall
    simp only [reduceCtorEq, false_iff]
    rintro ⟨p, hp, hnone⟩
    have := hall p hp
    simp [hnone] at this
  · rename_i hall
    simp only [List.all_eq_true] at hall
    push_neg at hall
    obtain ⟨p, hp, hns⟩ := hall
    refine iff_of_true rfl ⟨p, hp, ?_⟩
    exact Option.not_isSome_iff_eq_none.mp (by simpa using hns)

theorem dropToQuote_length : ∀ {x r : LC}, dropToQuote x = some r → r.length < x.length := by
  intro x
  induction x with
  | nil => intro r hr; simp [dropToQuote] at hr
  | cons c rest ih =>
    intro r hr
    by_cases hc : c = '"'
    · simp [dropToQuote, hc] at hr
      subst hr
      simp
    · simp [dropToQuote, hc] at hr
      exact Nat.lt_trans (ih hr) (by simp)

theorem dropToQuote_suffix : ∀ {x r : LC}, dropToQuote x = some r → r <:+ x := by
  intro x
  induction x with
  | nil => intro r hr; simp [dropToQuote] at hr
  | cons c rest ih =>
    intro r hr
    by_cases hc : c = '"'
    · simp [dropToQuote, hc] at hr
      subst hr
      exact List.suffix_cons c rest
    · simp [dropToQuote, hc] at hr
      exact (ih hr).trans (List.suffix_cons c rest)

theorem dropWsStar_length : ∀ (x : LC), (dropWsStar x).length ≤ x.length := by
  intro x
  induction x with
  | nil => simp [dropWsStar]
  | cons c rest ih =>
    by_cases hc : isPySpace c
    · simp [dropWsStar, hc]
      exact Nat.le_trans ih (by simp)
    · simp [dropWsStar, hc]

theorem dropWsStar_suffix : ∀ (x : LC), dropWsStar x <:+ x := by
  intro x
  induction x with
  | nil => simp [dropWsStar]
  | cons c rest ih =>
    by_cases hc : isPySpace c
    · simp only [dropWsStar, hc, if_true]
      exact ih.trans (List.suffix_cons c rest)
    · simp [dropWsStar, hc]

theorem dropThroughGt_length : ∀ {x r : LC}, dropThroughGt x = some r → r.length < x.length := by
  intro x
  induction x with
  | nil => intro r hr; simp [dropThroughGt] at hr
  | cons c rest ih =>
    intro r hr
    by_cases hc : c = '>'
    · simp [dropThroughGt, hc] at hr
      subst hr
      simp
    · simp [dropThroughGt, hc] at hr
      exact Nat.lt_trans (ih hr) (by simp)

theorem dropThroughGt_none : ∀ {x : LC}, dropThroughGt x = none → '>' ∉ x := by
  intro x
  induction x with
  | nil => intro _ h; simp at h
  | cons c rest ih =>
    intro hr
    by_cases hc : c = '>'
    · simp [dropThroughGt, hc] at hr
    · simp [dropThroughGt, hc] at hr
      intro hmem
      rcases List.mem_cons.mp hmem with h | h
      · exact hc h.symm
      · exact ih hr h

theorem matchImgTag_length : ∀ {x r : LC}, matchImgTag x = some r → r.length < x.length := by
  intro x r hm
  unfold matchImgTag at hm
  split at hm
  · rename_i c1 c2 c3 c4 c5 rest0
    split at hm
    · split at hm
      · rename_i c6 rest2 heq2
        split at hm
        · split at hm
          · rename_i c7 rest3 heq3
            split at hm
            · have h1 : (c7 :: rest3).length < rest2.length := dropToQuote_length heq3
              have h2 : (c6 :: rest2).length ≤ rest0.length := heq2 ▸ (dropWsStar_suffix rest0).length_le
              have h3 : r = rest3 := by injection hm with h; exact h.symm
              subst h3
              simp at h1 h2 ⊢
              omega
            · exact absurd hm (by simp)
          · exact absurd hm (by simp)
        · exact absurd hm (by simp)
      · exact absurd hm (by simp)
    · exact absurd hm (by simp)
  · exact absurd hm (by simp)

theorem matchImgTag_head : ∀ {c : Char} {t r : LC}, matchImgTag (c :: t) = some r → c = '<' := by
  intro c t r hm
  unfold matchImgTag at hm
  split at hm
  · rename_i c1 c2 c3 c4 c5 rest0 heq
    split at hm
    · rename_i hcond
      injection heq with h1 _
      exact h1 ▸ hcond.1
    · exact absurd hm (by simp)
  · exact absurd hm (by simp)

theorem matchImgTag_gt_mem : ∀ {x r : LC}, matchImgTag x = some r → '>' ∈ x := by
  intro x r hm
  unfold matchImgTag at hm
  split at hm
  · rename_i c1 c2 c3 c4 c5 rest0
    split at hm
    · split at hm
      · rename_i c6 rest2 heq2
        split at hm
        · split at hm
          · rename_i c7 rest3 heq3
            split at hm
            · rename_i hc7
              have h1 : '>' ∈ (c7 :: rest3) := by simp [hc7]
              have h2 : '>' ∈ rest2 := (dropToQuote_suffix heq3).subset h1
              have h3 : '>' ∈ (c6 :: rest2) := List.mem_cons_of_mem c6 h2
              have h4 : '>' ∈ rest0 := (heq2 ▸ dropWsStar_suffix rest0).subset h3
              simp [h4]
            · exact absurd hm (by simp)
          · exact absurd hm (by simp)
        · exact absurd hm (by simp)
      · exact absurd hm (by simp)
    · exact absurd hm (by simp)
  · exact absurd hm (by simp)

theorem stripImgN_fuel : ∀ (n m : Nat) (l : LC), l.length ≤ n → l.length ≤ m →
    stripImgN n l = stripImgN m l := by
  intro n
  induction n with
  | zero =>
    intro m l hn _
    interval_cases hl : l.length
    · have : l = [] := List.length_eq_zero.mp hl
      subst this
      cases m with
      | zero => rfl
      | succ m => simp [stripImgN, matchImgTag]
  | succ n ih =>
    intro m l hn hm
    cases m with
    | zero =>
      have : l = [] := List.length_eq_zero.mp (Nat.le_zero.mp hm)
      subst this
      simp [stripImgN, matchImgTag]
    | succ m =>
      simp only [stripImgN]
      cases hmt : matchImgTag l with
      | some rest =>
        have hlen := matchImgTag_length hmt
        exact ih m rest (by omega) (by omega)
      | none =>
        cases l with
        | nil => rfl
        | cons c rest =>
          simp at hn hm
          show c :: stripImgN n rest = c :: stripImgN m rest
          rw [ih m rest (by omega) (by omega)]

theorem stripAngleN_fuel : ∀ (n m : Nat) (l : LC), l.length ≤ n → l.length ≤ m →
    stripAngleN n l = stripAngleN m l := by
  intro n
  induction n with
  | zero =>
    intro m l hn _
    have : l = [] := List.length_eq_zero.mp (Nat.le_zero.mp hn)
    subst this
    cases m with
    | zero => rfl
    | succ m => simp [stripAngleN]
  | succ n ih =>
    intro m l hn hm
    cases m with
    | zero =>
      have : l = [] := List.length_eq_zero.mp (Nat.le_zero.mp hm)
      subst this
      simp [stripAngleN]
    | succ m =>
      cases l with
      | nil => rfl
      | cons c rest =>
        simp at hn hm
        simp only [stripAngleN]
        by_cases hc : c = '<'
        · simp only [hc, if_true]
          cases hg : dropThroughGt rest with
          | some rest2 =>
            have hlen := dropThroughGt_length hg
            exact ih m rest2 (by omega) (by omega)
          | none => rfl
        · simp only [hc, if_false]
          rw [ih m rest (by omega) (by omega)]

theorem stripImg_match {l rest : LC} (h : matchImgTag l = some rest) :
    stripImg l = stripImg rest := by
  have hlen := matchImgTag_length h
  unfold stripImg
  have h1 : l.length = (l.length - 1) + 1 := by omega
  rw [h1]
  simp only [stripImgN, h]
  exact stripImgN_fuel _ _ rest (by omega) (by omega)

theorem stripImg_nomatch {c : Char} {rest : LC} (h : matchImgTag (c :: rest) = none) :
    stripImg (c :: rest) = c :: stripImg rest := by
  unfold stripImg
  simp only [List.length_cons, stripImgN, h]

theorem stripAngle_length : ∀ (n : Nat) (l : LC), (stripAngleN n l).length ≤ l.length := by
  intro n
  induction n with
  | zero => intro l; simp [stripAngleN]
  | succ n ih =>
    intro l
    cases l with
    | nil => simp [stripAngleN]
    | cons c rest =>
      simp only [stripAngleN]
      by_cases hc : c = '<'
      · simp only [hc, if_true]
        cases hg : dropThroughGt rest with
        | some rest2 =>
          have h1 := ih rest2
          have h2 := dropThroughGt_length hg
          simp
          omega
        | none => simp
      · simp only [hc, if_false]
        have := ih rest
        simp
        omega

theorem stripAngleN_split : ∀ (n : Nat) (l : LC), l.length ≤ n →
    ∃ a b : LC, stripAngleN n l = a ++ b ∧ (∀ x ∈ a, x ≠ '<') ∧ (∀ x ∈ b, x ≠ '>') := by
  intro n
  induction n with
  | zero =>
    intro l hn
    have : l = [] := List.length_eq_zero.mp (Nat.le_zero.mp hn)
    subst this
    exact ⟨[], [], by simp [stripAngleN], by simp, by simp⟩
  | succ n ih =>
    intro l hn
    cases l with
    | nil => exact ⟨[], [], by simp [stripAngleN], by simp, by simp⟩
    | cons c rest =>
      simp at hn
      by_cases hc : c = '<'
      · subst hc
        have hred : stripAngleN (n + 1) ('<' :: rest) =
            match dropThroughGt rest with
            | some rest2 => stripAngleN n rest2
            | none => '<' :: rest := by
          simp [stripAngleN]
        rw [hred]
        cases hg : dropThroughGt rest with
        | some rest2 =>
          have hlen := dropThroughGt_length hg
          exact ih rest2 (by omega)
        | none =>
          refine ⟨[], '<' :: rest, by simp, by simp, ?_⟩
          intro x hx
          rcases List.mem_cons.mp hx with h | h
          · rw [h]; decide
          · exact fun hgt => absurd (hgt ▸ h) (dropThroughGt_none hg)
      · have hred : stripAngleN (n + 1) (c :: rest) = c :: stripAngleN n rest := by
          simp [stripAngleN, hc]
        rw [hred]
        obtain ⟨a, b, heq, ha, hb⟩ := ih rest (by omega)
        exact ⟨c :: a, b, by simp [heq], by simpa [hc] using ha, hb⟩

theorem stripAngle_split (l : LC) :
    ∃ a b : LC, stripAngle l = a ++ b ∧ (∀ x ∈ a, x ≠ '<') ∧ (∀ x ∈ b, x ≠ '>') :=
  stripAngleN_split l.length l (Nat.le_refl _)

theorem containsImgTag_no_gt : ∀ (b : LC), (∀ x ∈ b, x ≠ '>') → containsImgTag b = false := by
  intro b
  induction b with
  | nil => intro _; rfl
  | cons c rest ih =>
    intro hb
    simp only [containsImgTag, Bool.or_eq_false_iff]
    constructor
    · cases hm : matchImgTag (c :: rest) with
      | none => rfl
      | some r => exact absurd rfl (hb '>' (matchImgTag_gt_mem hm))
    · exact ih (fun x hx => hb x (List.mem_cons_of_mem c hx))

theorem containsImgTag_split : ∀ (a b : LC), (∀ x ∈ a, x ≠ '<') → (∀ x ∈ b, x ≠ '>') →
    containsImgTag (a ++ b) = false := by
  intro a
  induction a with
  | nil => intro b _ hb; simpa using containsImgTag_no_gt b hb
  | cons c a' ih =>
    intro b ha hb
    simp only [List.cons_append, containsImgTag, Bool.or_eq_false_iff]
    constructor
    · cases hm : matchImgTag (c :: (a' ++ b)) with
      | none => rfl
      | some r => exact absurd (matchImgTag_head hm) (ha c (by simp))
    · exact ih b (fun x hx => ha x (List.mem_cons_of_mem c hx)) hb

/-- C2 (counterexample): for content `hello <b>` the excerpt produced by the
    code is `hello ` — it carries a trailing space, because the code trims
    whitespace on the 150-character slice before stripping the remaining
    `<...>` tags, not after. -/
theorem excerpt_trailing_whitespace_example :
    (parse_post
        "[Title]\nT\n[Date]\n01/02/2024\n[Category]\nC\n[Content]\nhello <b>".toList
        "a.txt".toList).map (fun p => p.excerpt) = some "hello ".toList ∧
    pyStrip "hello ".toList ≠ "hello ".toList :=
  ⟨by rfl, by decide⟩

theorem dropWhile_length_le (p : Char → Bool) : ∀ l : LC, (l.dropWhile p).length ≤ l.length := by
  intro l
  induction l with
  | nil => simp
  | cons c rest ih =>
    rw [List.dropWhile_cons]
    by_cases hc : p c
    · simp only [hc, if_true]
      simp
      omega
    · simp [hc]

theorem pyStrip_length (l : LC) : (pyStrip l).length ≤ l.length := by
  unfold pyStrip
  have h1 := dropWhile_length_le isPySpace l
  have h2 := dropWhile_length_le isPySpace (l.dropWhile isPySpace).reverse
  simp only [List.length_reverse] at h2 ⊢
  omega

theorem stripAngle_le (l : LC) : (stripAngle l).length ≤ l.length :=
  stripAngle_length l.length l

theorem mkExcerpt_eq (c : LC) :
    mkExcerpt c = if 150 < (stripImg c).length
      then excerptBase c ++ "...".toList else excerptBase c := rfl

theorem excerptBase_length (c : LC) : (excerptBase c).length ≤ 150 := by
  unfold excerptBase
  have h1 : (((stripImg c).take 150)).length ≤ 150 := by
    simp [List.length_take]
  have h2 := pyStrip_length ((stripImg c).take 150)
  have h3 := stripAngle_le (pyStrip ((stripImg c).take 150))
  omega

theorem mkExcerpt_length (c : LC) : (mkExcerpt c).length ≤ 153 := by
  rw [mkExcerpt_eq]
  have := excerptBase_length c
  by_cases hc : 150 < (stripImg c).length
  · rw [if_pos hc]
    simp
    omega
  · rw [if_neg hc]
    omega

theorem mkExcerpt_ellipsis_iff (c : LC) :
    mkExcerpt c = excerptBase c ++ "...".toList ↔ 150 < (stripImg c).length := by
  rw [mkExcerpt_eq]
  by_cases hc : 150 < (stripImg c).length
  · rw [if_pos hc]
    exact iff_of_true rfl hc
  · rw [if_neg hc]
    refine iff_of_false (fun he => ?_) hc
    have := congrArg List.length he
    simp at this

theorem containsImgTag_mkExcerpt (c : LC) : containsImgTag (mkExcerpt c) = false := by
  rw [mkExcerpt_eq]
  obtain ⟨a, b, heq, ha, hb⟩ := stripAngle_split (pyStrip ((stripImg c).take 150))
  unfold excerptBase
  by_cases hc : 150 < (stripImg c).length
  · rw [if_pos hc, heq, List.append_assoc]
    refine containsImgTag_split a (b ++ "...".toList) ha ?_
    intro x hx
    rcases List.mem_append.mp hx with h | h
    · exact hb x h
    · have hx2 : x = '.' := by simpa using h
      rw [hx2]
      decide
  · rw [if_neg hc, heq]
    exact containsImgTag_split a b ha hb

/-- C2 (amended): for every parsed post the excerpt is derived by removing
    every image tag from the full content, taking the first 150 characters,
    trimming whitespace on that slice, and only then stripping the remaining
    `<...>` tags (followed by the optional ellipsis): trimming precedes tag
    stripping, so the final excerpt may carry leading or trailing whitespace
    that tag removal exposes. -/
theorem parse_post_excerpt_pipeline (text fn : LC) (p : Post)
    (h : parse_post text fn = some p) :
    p.excerpt =
      (if 150 < (stripImg p.content).length
        then stripAngle (pyStrip ((stripImg p.content).take 150)) ++ "...".toList
        else stripAngle (pyStrip ((stripImg p.content).take 150))) := by
  have hp := parse_post_eq_some h
  subst hp
  rw [withExcerpt_excerpt, withExcerpt_content]
  exact mkExcerpt_eq _

theorem parse_post_excerpt_pipeline_witness :
    (parse_post
        "[Title]\nT\n[Date]\n01/02/2024\n[Category]\nC\n[Content]\nsome <i>text</i> here".toList
        "w.txt".toList).isSome = true ∧
    (parse_post
        "[Title]\nT\n[Date]\n01/02/2024\n[Category]\nC\n[Content]\nsome <i>text</i> here".toList
        "w.txt".toList).map (fun p => p.excerpt) =
      (parse_post
        "[Title]\nT\n[Date]\n01/02/2024\n[Category]\nC\n[Content]\nsome <i>text</i> here".toList
        "w.txt".toList).map (fun p =>
          if 150 < (stripImg p.content).length
          then stripAngle (pyStrip ((stripImg p.content).take 150)) ++ "...".toList
          else stripAngle (pyStrip ((stripImg p.content).take 150))) := by
  refine ⟨by rfl, ?_⟩
  cases hh : parse_post
      "[Title]\nT\n[Date]\n01/02/2024\n[Category]\nC\n[Content]\nsome <i>text</i> here".toList
      "w.txt".toList with
  | none => rfl
  | some p => simp [parse_post_excerpt_pipeline _ _ p hh]

/-- C8: for every parsed post the excerpt is at most 153 characters long
    (150 plus the three-character ellipsis), and the ellipsis marker is
    appended precisely when the image-stripped (pre-truncation) content is
    longer than 150 characters. -/
theorem excerpt_length_and_ellipsis (text fn : LC) (p : Post)
    (h : parse_post text fn = some p) :
    p.excerpt.length ≤ 153 ∧
    (p.excerpt = excerptBase p.content ++ "...".toList ↔
      150 < (stripImg p.content).length) := by
  have hp := parse_post_eq_some h
  subst hp
  rw [withExcerpt_excerpt, withExcerpt_content]
  exact ⟨mkExcerpt_length _, mkExcerpt_ellipsis_iff _⟩

theorem excerpt_length_and_ellipsis_witness :
    (parse_post
        "[Title]\nT\n[Date]\n01/02/2024\n[Category]\nC\n[Content]\nThis content string is written to be clearly longer than one hundred and fifty characters so that the excerpt generation truncates it and appends the ellipsis marker at the end.".toList
        "w8.txt".toList).map (fun p => decide (p.excerpt.length ≤ 153)) = some true ∧
    (parse_post
        "[Title]\nT\n[Date]\n01/02/2024\n[Category]\nC\n[Content]\nThis content string is written to be clearly longer than one hundred and fifty characters so that the excerpt generation truncates it and appends the ellipsis marker at the end.".toList
        "w8.txt".toList).map
      (fun p => decide (p.excerpt = excerptBase p.content ++ "...".toList) ==
        decide (150 < (stripImg p.content).length)) = some true := by
  constructor
  · cases hh : parse_post
        "[Title]\nT\n[Date]\n01/02/2024\n[Category]\nC\n[Content]\nThis content string is written to be clearly longer than one hundred and fifty characters so that the excerpt generation truncates it and appends the ellipsis marker at the end.".toList
        "w8.txt".toList with
    | none =>
      have hs : (parse_post
          "[Title]\nT\n[Date]\n01/02/2024\n[Category]\nC\n[Content]\nThis content string is written to be clearly longer than one hundred and fifty characters so that the excerpt generation truncates it and appends the ellipsis marker at the end.".toList
          "w8.txt".toList).isSome = true := by rfl
      rw [hh] at hs
      simp at hs
    | some p =>
      have h1 := (excerpt_length_and_ellipsis _ _ p hh).1
      show some (decide (p.excerpt.length ≤ 153)) = some true
      simp [h1]
  · cases hh : parse_post
        "[Title]\nT\n[Date]\n01/02/2024\n[Category]\nC\n[Content]\nThis content string is written to be clearly longer than one hundred and fifty characters so that the excerpt generation truncates it and appends the ellipsis marker at the end.".toList
        "w8.txt".toList with
    | none =>
      have hs : (parse_post
          "[Title]\nT\n[Date]\n01/02/2024\n[Category]\nC\n[Content]\nThis content string is written to be clearly longer than one hundred and fifty characters so that the excerpt generation truncates it and appends the ellipsis marker at the end.".toList
          "w8.txt".toList).isSome = true := by rfl
      rw [hh] at hs
      simp at hs
    | some p =>
      have h2 := (excerpt_length_and_ellipsis _ _ p hh).2
      show some (decide (p.excerpt = excerptBase p.content ++ "...".toList) ==
        decide (150 < (stripImg p.content).length)) = some true
      have heq : decide (p.excerpt = excerptBase p.content ++ "...".toList) =
          decide (150 < (stripImg p.content).length) := by
        simp only [decide_eq_decide]
        exact h2
      rw [heq]
      simp

/-- C9: the final excerpt of every parsed post contains no substring matching
    the image-tag pattern `<img\s+"[^"]*">`: image tags are removed from the
    full content before the 150-character truncation, and the later `<...>`
    pass leaves every remaining `<` without any later `>`. -/
theorem excerpt_no_image_tag (text fn : LC) (p : Post)
    (h : parse_post text fn = some p) :
    containsImgTag p.excerpt = false := by
  have hp := parse_post_eq_some h
  subst hp
  rw [withExcerpt_excerpt]
  exact containsImgTag_mkExcerpt _

theorem excerpt_no_image_tag_witness :
    (parse_post
        "[Title]\nT\n[Date]\n01/02/2024\n[Category]\nC\n[Content]\nbefore <img \"pic.png\"> after this tag the text continues long enough to reach past one hundred and fifty characters so truncation happens right around the middle of another <img \"straddling.png\"> image tag in the content.".toList
        "w9.txt".toList).map (fun p => containsImgTag p.excerpt) = some false := by
  cases hh : parse_post
      "[Title]\nT\n[Date]\n01/02/2024\n[Category]\nC\n[Content]\nbefore <img \"pic.png\"> after this tag the text continues long enough to reach past one hundred and fifty characters so truncation happens right around the middle of another <img \"straddling.png\"> image tag in the content.".toList
      "w9.txt".toList with
  | none =>
    have hs : (parse_post
        "[Title]\nT\n[Date]\n01/02/2024\n[Category]\nC\n[Content]\nbefore <img \"pic.png\"> after this tag the text continues long enough to reach past one hundred and fifty characters so truncation happens right around the middle of another <img \"straddling.png\"> image tag in the content.".toList
        "w9.txt".toList).isSome = true := by rfl
    rw [hh] at hs
    simp at hs
  | some p =>
    show some (containsImgTag p.excerpt) = some false
    rw [excerpt_no_image_tag _ _ p hh]

theorem splitOnChar_append (sep : Char) : ∀ (a b : LC), sep ∉ a →
    splitOnChar sep (a ++ sep :: b) = a :: splitOnChar sep b := by
  intro a
  induction a with
  | nil =>
    intro b _
    simp [splitOnChar]
  | cons c a' ih =>
    intro b hmem
    have hc : ¬ (c = sep) := fun h => hmem (by simp [h])
    show (if c = sep then [] :: splitOnChar sep (a' ++ sep :: b)
          else match splitOnChar sep (a' ++ sep :: b) with
            | l :: ls => (c :: l) :: ls
            | [] => [[c]]) = (c :: a') :: splitOnChar sep b
    rw [if_neg hc, ih b (fun h => hmem (List.mem_cons_of_mem c h))]

theorem splitOnChar_ne_nil (sep : Char) : ∀ (l : LC), splitOnChar sep l ≠ [] := by
  intro l
  induction l with
  | nil => simp [splitOnChar]
  | cons c rest ih =>
    by_cases hc : c = sep
    · simp [splitOnChar, hc]
    · simp only [splitOnChar, hc, if_false]
      cases heq : splitOnChar sep rest with
      | nil => exact absurd heq ih
      | cons l ls => simp

theorem foldl_nonheader : ∀ (lines : List LC) (p : Post) (s : LC) (buf : List LC),
    (∀ l ∈ lines, headerName l = none) →
    lines.foldl parseStep ⟨p, some s, buf⟩ = ⟨p, some s, buf ++ lines.map unescapeLine⟩ := by
  intro lines
  induction lines with
  | nil => intro p s buf _; simp
  | cons l rest ih =>
    intro p s buf h
    have hl : headerName l = none := h l (by simp)
    rw [List.foldl_cons]
    have hstep : parseStep ⟨p, some s, buf⟩ l = ⟨p, some s, buf ++ [unescapeLine l]⟩ := by
      simp [parseStep, hl]
    rw [hstep, ih p s _ (fun x hx => h x (List.mem_cons_of_mem l hx))]
    simp

theorem dictLookup_dictSet (k v : LC) : ∀ (d : List (LC × LC)),
    dictLookup (dictSet d k v) k = v := by
  intro d
  induction d with
  | nil => simp [dictSet, dictLookup]
  | cons kv rest ih =>
    obtain ⟨k', v'⟩ := kv
    by_cases hk : k' = k
    · simp [dictSet, hk, dictLookup]
    · simp only [dictSet, hk, if_false]
      simp [dictLookup, hk, ih]

theorem getField_setField_same (p : Post) (k v : LC) :
    getField (setField p k v) k = v := by
  unfold getField setField
  split_ifs <;> simp_all [dictLookup_dictSet]

theorem setField_path_of_ne (p : Post) (k v : LC) (h : k ≠ "path".toList) :
    (setField p k v).path = p.path := by
  unfold setField
  split_ifs <;> simp_all

theorem saveSection_path (st : ParseState)
    (h : ∀ s, st.cur = some s → lowerStr s ≠ "path".toList) :
    (saveSection st).path = st.post.path := by
  unfold saveSection
  cases hcur : st.cur with
  | none => rfl
  | some s =>
    show (if st.buf ≠ [] then setField st.post (lowerStr s) (pyStrip (joinNl st.buf))
        else st.post).path = st.post.path
    by_cases hb : st.buf ≠ []
    · rw [if_pos hb]
      exact setField_path_of_ne _ _ _ (h s hcur)
    · rw [if_neg hb]

theorem foldl_path : ∀ (lines : List LC) (st : ParseState),
    (∀ l ∈ lines, ∀ n, headerName l = some n → lowerStr n ≠ "path".toList) →
    (∀ s, st.cur = some s → lowerStr s ≠ "path".toList) →
    (lines.foldl parseStep st).post.path = st.post.path ∧
    (∀ s, (lines.foldl parseStep st).cur = some s → lowerStr s ≠ "path".toList) := by
  intro lines
  induction lines with
  | nil => intro st _ hcur; exact ⟨rfl, hcur⟩
  | cons l rest ih =>
    intro st hlines hcur
    obtain ⟨spost, scur, sbuf⟩ := st
    rw [List.foldl_cons]
    have hrest : ∀ x ∈ rest, ∀ n, headerName x = some n → lowerStr n ≠ "path".toList :=
      fun x hx m hm => hlines x (List.mem_cons_of_mem l hx) m hm
    cases hh : headerName l with
    | some n =>
      have hstep : parseStep ⟨spost, scur, sbuf⟩ l =
          ⟨saveSection ⟨spost, scur, sbuf⟩, some n, []⟩ := by
        simp [parseStep, hh]
      rw [hstep]
      have hn : lowerStr n ≠ "path".toList := hlines l (by simp) n hh
      obtain ⟨h1, h2⟩ := ih ⟨saveSection ⟨spost, scur, sbuf⟩, some n, []⟩ hrest
        (fun s hs => by injection hs with hs; exact hs ▸ hn)
      refine ⟨?_, h2⟩
      rw [h1]
      exact saveSection_path ⟨spost, scur, sbuf⟩ hcur
    | none =>
      cases scur with
      | none =>
        have hstep : parseStep ⟨spost, none, sbuf⟩ l = ⟨spost, none, sbuf⟩ := by
          simp [parseStep, hh]
        rw [hstep]
        exact ih _ hrest hcur
      | some s =>
        have hstep : parseStep ⟨spost, some s, sbuf⟩ l =
            ⟨spost, some s, sbuf ++ [unescapeLine l]⟩ := by
          simp [parseStep, hh]
        rw [hstep]
        exact ih _ hrest (fun s' hs' => hcur s' hs')

theorem dictLookup_dictSet_ne (k' : LC) (v : LC) (k : LC) (h : k' ≠ k) :
    ∀ (d : List (LC × LC)), dictLookup (dictSet d k' v) k = dictLookup d k := by
  intro d
  induction d with
  | nil => simp [dictSet, dictLookup, h]
  | cons kv rest ih =>
    obtain ⟨k0, v0⟩ := kv
    by_cases hk : k0 = k'
    · subst hk
      simp [dictSet, dictLookup, h]
    · simp only [dictSet, hk, if_false]
      by_cases h0 : k0 = k
      · simp [dictLookup, h0]
      · simp [dictLookup, h0, ih]

theorem setField_title_of_ne (p : Post) (k v : LC) (h : k ≠ "title".toList) :
    (setField p k v).title = p.title := by
  unfold setField
  split_ifs <;> simp_all

theorem setField_thumbnail_of_ne (p : Post) (k v : LC) (h : k ≠ "thumbnail".toList) :
    (setField p k v).thumbnail = p.thumbnail := by
  unfold setField
  split_ifs <;> simp_all

theorem setField_content_of_ne (p : Post) (k v : LC) (h : k ≠ "content".toList) :
    (setField p k v).content = p.content := by
  unfold setField
  split_ifs <;> simp_all

theorem setField_date_of_ne (p : Post) (k v : LC) (h : k ≠ "date".toList) :
    (setField p k v).date = p.date := by
  unfold setField
  split_ifs <;> simp_all

theorem setField_category_of_ne (p : Post) (k v : LC) (h : k ≠ "category".toList) :
    (setField p k v).category = p.category := by
  unfold setField
  split_ifs <;> simp_all

theorem setField_excerpt_of_ne (p : Post) (k v : LC) (h : k ≠ "excerpt".toList) :
    (setField p k v).excerpt = p.excerpt := by
  unfold setField
  split_ifs <;> simp_all

theorem dictLookup_setField_extra (p : Post) (k' v k : LC) (h : k' ≠ k) :
    dictLookup (setField p k' v).extra k = dictLookup p.extra k := by
  unfold setField
  split_ifs <;> simp_all [dictLookup_dictSet_ne k' v k h]

theorem getField_setField_ne (p : Post) (k' v k : LC) (h : k' ≠ k) :
    getField (setField p k' v) k = getField p k := by
  unfold getField
  split_ifs with g1 g2 g3 g4 g5 g6 g7
  · exact setField_path_of_ne p k' v (fun he => h (he.trans g1.symm))
  · exact setField_title_of_ne p k' v (fun he => h (he.trans g2.symm))
  · exact setField_thumbnail_of_ne p k' v (fun he => h (he.trans g3.symm))
  · exact setField_content_of_ne p k' v (fun he => h (he.trans g4.symm))
  · exact setField_date_of_ne p k' v (fun he => h (he.trans g5.symm))
  · exact setField_category_of_ne p k' v (fun he => h (he.trans g6.symm))
  · exact setField_excerpt_of_ne p k' v (fun he => h (he.trans g7.symm))
  · exact dictLookup_setField_extra p k' v k h

theorem saveSection_getField (st : ParseState) (k : LC)
    (h : ∀ s, st.cur = some s → lowerStr s ≠ k) :
    getField (saveSection st) k = getField st.post k := by
  unfold saveSection
  cases hcur : st.cur with
  | none => rfl
  | some s =>
    show getField (if st.buf ≠ [] then
        setField st.post (lowerStr s) (pyStrip (joinNl st.buf)) else st.post) k =
      getField st.post k
    by_cases hb : st.buf ≠ []
    · rw [if_pos hb]
      exact getField_setField_ne _ _ _ _ (h s hcur)
    · rw [if_neg hb]

theorem foldl_getField : ∀ (lines : List LC) (st : ParseState) (k : LC),
    (∀ l ∈ lines, ∀ n, headerName l = some n → lowerStr n ≠ k) →
    (∀ s, st.cur = some s → lowerStr s ≠ k) →
    getField (lines.foldl parseStep st).post k = getField st.post k ∧
    (∀ s, (lines.foldl parseStep st).cur = some s → lowerStr s ≠ k) := by
  intro lines
  induction lines with
  | nil => intro st k _ hcur; exact ⟨rfl, hcur⟩
  | cons l rest ih =>
    intro st k hlines hcur
    obtain ⟨spost, scur, sbuf⟩ := st
    rw [List.foldl_cons]
    have hrest : ∀ x ∈ rest, ∀ n, headerName x = some n → lowerStr n ≠ k :=
      fun x hx m hm => hlines x (List.mem_cons_of_mem l hx) m hm
    cases hh : headerName l with
    | some n =>
      have hstep : parseStep ⟨spost, scur, sbuf⟩ l =
          ⟨saveSection ⟨spost, scur, sbuf⟩, some n, []⟩ := by
        simp [parseStep, hh]
      rw [hstep]
      have hn : lowerStr n ≠ k := hlines l (by simp) n hh
      obtain ⟨h1, h2⟩ := ih ⟨saveSection ⟨spost, scur, sbuf⟩, some n, []⟩ k hrest
        (fun s hs => by injection hs with hs; exact hs ▸ hn)
      refine ⟨?_, h2⟩
      rw [h1]
      exact saveSection_getField ⟨spost, scur, sbuf⟩ k hcur
    | none =>
      cases scur with
      | none =>
        have hstep : parseStep ⟨spost, none, sbuf⟩ l = ⟨spost, none, sbuf⟩ := by
          simp [parseStep, hh]
        rw [hstep]
        exact ih _ k hrest hcur
      | some s =>
        have hstep : parseStep ⟨spost, some s, sbuf⟩ l =
            ⟨spost, some s, sbuf ++ [unescapeLine l]⟩ := by
          simp [parseStep, hh]
        rw [hstep]
        exact ih _ k hrest (fun s' hs' => hcur s' hs')

/-- C3 (counterexample): in the input `[Title]\nA\n[Date]\n01/02/2024\n[Category]\nC\n[Title]`
    the section `[Title]` occurs twice and the last occurrence has an empty
    body (no lines follow it); the parsed title is `A`, the content of the
    first occurrence, not the empty content of the last one — so the last
    occurrence does not win when its body is empty. -/
theorem repeated_empty_header_keeps_old_value :
    (parse_post "[Title]\nA\n[Date]\n01/02/2024\n[Category]\nC\n[Title]".toList
      "a.txt".toList).map (fun p => p.title) = some "A".toList ∧
    ("A".toList : LC) ≠ [] :=
  ⟨by rfl, by decide⟩

/-- C3 (amended): a repeated section header overwrites the field only when its
    body is nonempty: whenever `[N]` is the last header writing to the field
    `lowercase(N)` — no later header's name lowercases to it — and at least
    one (non-header) line follows it before the next header or end of input,
    the field holds the content of that occurrence, wherever in the input it
    sits; a repeated header with zero body lines leaves the previous value in
    place (shown by the counterexample). -/
theorem last_nonempty_section_wins (text fn : LC) (pre body rest : List LC) (hline N : LC)
    (hsplit : splitOnChar '\n' text = pre ++ hline :: (body ++ rest))
    (hh : headerName hline = some N)
    (hne : body ≠ [])
    (hbody : ∀ l ∈ body, headerName l = none)
    (hterm : rest = [] ∨ (rest.head?.bind headerName).isSome = true)
    (hlast : ∀ l ∈ rest, (headerName l).map lowerStr ≠ some (lowerStr N)) :
    getField (parseSections text fn) (lowerStr N) =
      pyStrip (joinNl (body.map unescapeLine)) := by
  unfold parseSections
  rw [hsplit, List.foldl_append, List.foldl_cons]
  generalize pre.foldl parseStep ⟨initPost fn, none, []⟩ = st1
  have hstep : parseStep st1 hline = ⟨saveSection st1, some N, []⟩ := by
    simp [parseStep, hh]
  rw [hstep, List.foldl_append, foldl_nonheader body _ _ _ hbody]
  have hmapne : body.map unescapeLine ≠ [] := by
    cases body with
    | nil => exact absurd rfl hne
    | cons a b => simp
  have hsave : saveSection ⟨saveSection st1, some N, ([] : List LC) ++ body.map unescapeLine⟩ =
      setField (saveSection st1) (lowerStr N) (pyStrip (joinNl (body.map unescapeLine))) := by
    show (if body.map unescapeLine ≠ [] then
        setField (saveSection st1) (lowerStr N) (pyStrip (joinNl (body.map unescapeLine)))
      else saveSection st1) = _
    rw [if_pos hmapne]
  cases rest with
  | nil =>
    rw [List.foldl_nil, hsave, getField_setField_same]
  | cons r0 rs =>
    have hr0 : ∃ n0, headerName r0 = some n0 := by
      rcases hterm with h | h
      · exact absurd h (by simp)
      · simpa [Option.isSome_iff_exists] using h
    obtain ⟨n0, hn0⟩ := hr0
    rw [List.foldl_cons]
    have hstep1 : parseStep ⟨saveSection st1, some N, ([] : List LC) ++ body.map unescapeLine⟩ r0 =
        ⟨saveSection ⟨saveSection st1, some N, ([] : List LC) ++ body.map unescapeLine⟩,
          some n0, []⟩ := by
      simp [parseStep, hn0]
    rw [hstep1]
    have hn0k : lowerStr n0 ≠ lowerStr N := by
      have h := hlast r0 (by simp)
      rw [hn0] at h
      simpa using h
    obtain ⟨hpost, hcur⟩ := foldl_getField rs
      ⟨saveSection ⟨saveSection st1, some N, ([] : List LC) ++ body.map unescapeLine⟩,
        some n0, []⟩
      (lowerStr N)
      (fun l hl n hn => by
        have h := hlast l (List.mem_cons_of_mem r0 hl)
        rw [hn] at h
        simpa using h)
      (fun s hs => by injection hs with hs; exact hs ▸ hn0k)
    rw [saveSection_getField _ _ hcur, hpost]
    show getField (saveSection ⟨saveSection st1, some N,
      ([] : List LC) ++ body.map unescapeLine⟩) (lowerStr N) = _
    rw [hsave, getField_setField_same]

theorem last_nonempty_section_wins_witness :
    getField (parseSections "[Title]\nA\n[Title]\nB\n[Date]\n01/02/2024\n[Category]\nC".toList
      "w3.txt".toList) (lowerStr "Title".toList) =
      pyStrip (joinNl (["B".toList].map unescapeLine)) :=
  last_nonempty_section_wins
    "[Title]\nA\n[Title]\nB\n[Date]\n01/02/2024\n[Category]\nC".toList "w3.txt".toList
    ["[Title]".toList, "A".toList] ["B".toList]
    ["[Date]".toList, "01/02/2024".toList, "[Category]".toList, "C".toList]
    "[Title]".toList "Title".toList
    (by rfl) (by rfl) (by decide) (by decide) (Or.inr (by rfl)) (by decide)

/-- C4 (counterexample): a `[Path]` section in the input overwrites the `path`
    field: parsing `[Path]\nhacked\n...` with file name `a.txt` yields path
    `hacked`, not `posts/a.txt` — so the path is not independent of the input
    text. -/
theorem path_section_overrides_path :
    (parse_post "[Path]\nhacked\n[Title]\nT\n[Date]\n01/02/2024\n[Category]\nC".toList
      "a.txt".toList).map (fun p => p.path) = some "hacked".toList ∧
    ("hacked".toList : LC) ≠ "posts/".toList ++ "a.txt".toList :=
  ⟨by rfl, by decide⟩

/-- C4 (amended): for every input text none of whose lines is a section header
    whose name lowercases to `path`, the `path` field of the parsed Post is
    the string `posts/` concatenated with the file name; a `[Path]` (or
    `[PATH]`, etc.) section can overwrite it (shown by the counterexample). -/
theorem path_eq_of_no_path_header (text fn : LC)
    (hno : ∀ l ∈ splitOnChar '\n' text, (headerName l).map lowerStr ≠ some "path".toList)
    (p : Post) (hp : parse_post text fn = some p) :
    p.path = "posts/".toList ++ fn := by
  have h2 := parse_post_eq_some hp
  subst h2
  rw [withExcerpt_path]
  unfold parseSections
  obtain ⟨h1, hc⟩ := foldl_path (splitOnChar '\n' text) ⟨initPost fn, none, []⟩
    (fun l hl n hn => by
      have := hno l hl
      rw [hn] at this
      simpa using this)
    (fun s hs => Option.noConfusion hs)
  rw [saveSection_path _ hc, h1]
  rfl

theorem path_eq_of_no_path_header_witness :
    (parse_post "[Title]\nT\n[Date]\n01/02/2024\n[Category]\nC".toList
      "w4.txt".toList).map (fun p => p.path) =
      some ("posts/".toList ++ "w4.txt".toList) := by
  cases hh : parse_post "[Title]\nT\n[Date]\n01/02/2024\n[Category]\nC".toList
      "w4.txt".toList with
  | none =>
    have hs : (parse_post "[Title]\nT\n[Date]\n01/02/2024\n[Category]\nC".toList
        "w4.txt".toList).isSome = true := by rfl
    rw [hh] at hs
    simp at hs
  | some p =>
    show some p.path = some ("posts/".toList ++ "w4.txt".toList)
    rw [path_eq_of_no_path_header _ _ (by decide) p hh]

theorem word_takeWhile : ∀ (name : LC), (∀ ch ∈ name, isWordChar ch = true) →
    (name ++ [']']).takeWhile isWordChar = name ∧
    (name ++ [']']).dropWhile isWordChar = [']'] := by
  intro name
  induction name with
  | nil => intro _; exact ⟨by decide, by decide⟩
  | cons ch rest ih =>
    intro h
    have hch : isWordChar ch = true := h ch (by simp)
    obtain ⟨h1, h2⟩ := ih (fun x hx => h x (List.mem_cons_of_mem ch hx))
    constructor
    · simp [List.takeWhile_cons, hch, h1]
    · simp [List.dropWhile_cons, hch, h2]

theorem unescapeLine_id : ∀ (l : LC), '\\' ∉ l → unescapeLine l = l := by
  intro l
  induction l with
  | nil => intro _; rfl
  | cons c rest ih =>
    intro h
    have hc : c ≠ '\\' := fun he => h (by simp [he])
    cases rest with
    | nil => rfl
    | cons c2 rest2 =>
      show (if c = '\\' ∧ c2 = '[' then '[' :: unescapeLine rest2
          else c :: unescapeLine (c2 :: rest2)) = c :: c2 :: rest2
      rw [if_neg (fun hand => hc hand.1)]
      rw [ih (fun hm => h (List.mem_cons_of_mem c hm))]

/-- C10: escape round-trip. For every nonempty word-character name: the bare
    line `[name]` is a header opening the section `name`; the line
    `\[name]` is not a header, its escape marker is stripped by the unescape
    pass, and inside a section it is appended to the section body as the
    literal content line `[name]`. -/
theorem escape_round_trip (name : LC) (hne : name ≠ [])
    (hword : ∀ ch ∈ name, isWordChar ch = true) :
    headerName ('[' :: (name ++ [']'])) = some name ∧
    headerName ('\\' :: '[' :: (name ++ [']'])) = none ∧
    unescapeLine ('\\' :: '[' :: (name ++ [']'])) = '[' :: (name ++ [']']) ∧
    (∀ (st : ParseState) (s : LC), st.cur = some s →
      parseStep st ('\\' :: '[' :: (name ++ [']'])) =
        { st with buf := st.buf ++ ['[' :: (name ++ [']'])] } ∧
      parseStep st ('[' :: (name ++ [']'])) = ⟨saveSection st, some name, []⟩) := by
  obtain ⟨htake, hdrop⟩ := word_takeWhile name hword
  have hnb : '\\' ∉ name ++ [']'] := by
    intro hm
    rcases List.mem_append.mp hm with h | h
    · exact absurd (hword '\\' h) (by decide)
    · exact absurd (List.mem_singleton.mp h) (by decide)
  have hhdr : headerName ('[' :: (name ++ [']'])) = some name := by
    show (if '[' = '[' then
        (if (name ++ [']']).takeWhile isWordChar ≠ [] ∧
            (name ++ [']']).dropWhile isWordChar = [']']
          then some ((name ++ [']']).takeWhile isWordChar) else none)
      else none) = some name
    rw [if_pos rfl, htake, hdrop, if_pos ⟨hne, rfl⟩]
  have hesc : headerName ('\\' :: '[' :: (name ++ [']'])) = none := by
    show (if '\\' = '[' then
        (if ('[' :: (name ++ [']'])).takeWhile isWordChar ≠ [] ∧
            ('[' :: (name ++ [']'])).dropWhile isWordChar = [']']
          then some (('[' :: (name ++ [']'])).takeWhile isWordChar) else none)
      else none) = none
    rw [if_neg (by decide)]
  have hush : unescapeLine ('\\' :: '[' :: (name ++ [']'])) = '[' :: (name ++ [']']) := by
    show (if '\\' = '\\' ∧ '[' = '[' then '[' :: unescapeLine (name ++ [']'])
        else '\\' :: unescapeLine ('[' :: (name ++ [']']))) = '[' :: (name ++ [']'])
    rw [if_pos ⟨rfl, rfl⟩, unescapeLine_id _ hnb]
  refine ⟨hhdr, hesc, hush, ?_⟩
  intro st s hcur
  constructor
  · simp [parseStep, hesc, hcur, hush]
  · simp [parseStep, hhdr]

theorem escape_round_trip_witness :
    headerName ('[' :: ("Foo".toList ++ [']'])) = some "Foo".toList ∧
    parseStep ⟨initPost "w.txt".toList, some "Content".toList, []⟩
        ('\\' :: '[' :: ("Foo".toList ++ [']'])) =
      { post := initPost "w.txt".toList, cur := some "Content".toList,
        buf := ['[' :: ("Foo".toList ++ [']'])] } := by
  obtain ⟨h1, _, _, h4⟩ := escape_round_trip "Foo".toList (by decide) (by decide)
  refine ⟨h1, ?_⟩
  have := (h4 ⟨initPost "w.txt".toList, some "Content".toList, []⟩ "Content".toList rfl).1
  simpa using this

theorem parseStep_header {st : ParseState} {line n : LC} (h : headerName line = some n) :
    parseStep st line = ⟨saveSection st, some n, []⟩ := by
  simp [parseStep, h]

theorem parseStep_content {p : Post} {s : LC} {buf : List LC} {line : LC}
    (h : headerName line = none) :
    parseStep ⟨p, some s, buf⟩ line = ⟨p, some s, buf ++ [unescapeLine line]⟩ := by
  simp [parseStep, h]

theorem saveSection_none (p : Post) (buf : List LC) : saveSection ⟨p, none, buf⟩ = p := rfl

theorem saveSection_some (p : Post) (s : LC) (buf : List LC) (h : buf ≠ []) :
    saveSection ⟨p, some s, buf⟩ = setField p (lowerStr s) (pyStrip (joinNl buf)) := by
  show (if buf ≠ [] then setField p (lowerStr s) (pyStrip (joinNl buf)) else p) = _
  rw [if_pos h]

theorem joinNl_single (l : LC) : joinNl [l] = l := rfl

/-- C7: the validation of `parse_post` fails exactly when, after section
    parsing, one of the fields title, date, category is empty (missing section
    or present but empty); and every input of the shape `[Title]` line,
    non-header body line, `[Date]` line, body line, `[Category]` line, body
    line, `[Content]`, arbitrary non-header content — with the three stored
    required values nonempty after unescaping and trimming — parses
    successfully. -/
theorem required_fields_validation :
    (∀ text fn : LC, parse_post text fn = none ↔
      ((parseSections text fn).title = [] ∨ (parseSections text fn).date = [] ∨
        (parseSections text fn).category = [])) ∧
    (∀ (t d c body fn : LC),
      '\n' ∉ t → '\n' ∉ d → '\n' ∉ c →
      headerName t = none → headerName d = none → headerName c = none →
      pyStrip (unescapeLine t) ≠ [] → pyStrip (unescapeLine d) ≠ [] →
      pyStrip (unescapeLine c) ≠ [] →
      (∀ l ∈ splitOnChar '\n' body, headerName l = none) →
      (parse_post ("[Title]".toList ++ '\n' :: (t ++ '\n' :: ("[Date]".toList ++ '\n' ::
        (d ++ '\n' :: ("[Category]".toList ++ '\n' :: (c ++ '\n' ::
        ("[Content]".toList ++ '\n' :: body))))))) fn).isSome = true) := by
  constructor
  · intro text fn
    simp only [parse_post]
    split
    · rename_i hcond
      rw [withExcerpt_title, withExcerpt_date, withExcerpt_category] at hcond
      exact iff_of_true rfl hcond
    · rename_i hcond
      rw [withExcerpt_title, withExcerpt_date, withExcerpt_category] at hcond
      exact iff_of_false (by simp) hcond
  · intro t d c body fn hnt hnd hnc hht hhd hhc het hed hec hbody
    have hT : headerName "[Title]".toList = some "Title".toList := by rfl
    have hD : headerName "[Date]".toList = some "Date".toList := by rfl
    have hC : headerName "[Category]".toList = some "Category".toList := by rfl
    have hCt : headerName "[Content]".toList = some "Content".toList := by rfl
    have lT : lowerStr "Title".toList = "title".toList := by rfl
    have lD : lowerStr "Date".toList = "date".toList := by rfl
    have lC : lowerStr "Category".toList = "category".toList := by rfl
    have lCt : lowerStr "Content".toList = "content".toList := by rfl
    have hsplit : splitOnChar '\n' ("[Title]".toList ++ '\n' :: (t ++ '\n' ::
        ("[Date]".toList ++ '\n' :: (d ++ '\n' :: ("[Category]".toList ++ '\n' ::
        (c ++ '\n' :: ("[Content]".toList ++ '\n' :: body))))))) =
        "[Title]".toList :: t :: "[Date]".toList :: d :: "[Category]".toList :: c ::
          "[Content]".toList :: splitOnChar '\n' body := by
      rw [splitOnChar_append '\n' "[Title]".toList _ (by decide),
          splitOnChar_append '\n' t _ hnt,
          splitOnChar_append '\n' "[Date]".toList _ (by decide),
          splitOnChar_append '\n' d _ hnd,
          splitOnChar_append '\n' "[Category]".toList _ (by decide),
          splitOnChar_append '\n' c _ hnc,
          splitOnChar_append '\n' "[Content]".toList _ (by decide)]
    have hfold : ("[Title]".toList :: t :: "[Date]".toList :: d :: "[Category]".toList ::
        c :: "[Content]".toList :: splitOnChar '\n' body).foldl parseStep
          ⟨initPost fn, none, []⟩ =
        ⟨setField (setField (setField (initPost fn)
            "title".toList (pyStrip (unescapeLine t)))
            "date".toList (pyStrip (unescapeLine d)))
            "category".toList (pyStrip (unescapeLine c)),
         some "Content".toList,
         (splitOnChar '\n' body).map unescapeLine⟩ := by
      rw [List.foldl_cons, parseStep_header hT,
          List.foldl_cons, parseStep_content hht,
          List.foldl_cons, parseStep_header hD,
          List.foldl_cons, parseStep_content hhd,
          List.foldl_cons, parseStep_header hC,
          List.foldl_cons, parseStep_content hhc,
          List.foldl_cons, parseStep_header hCt,
          foldl_nonheader _ _ _ _ hbody]
      simp only [saveSection_none, List.nil_append]
      rw [saveSection_some _ _ _ (by simp), saveSection_some _ _ _ (by simp),
          saveSection_some _ _ _ (by simp)]
      simp only [lT, lD, lC, joinNl_single]
    have hps : parseSections ("[Title]".toList ++ '\n' :: (t ++ '\n' ::
        ("[Date]".toList ++ '\n' :: (d ++ '\n' :: ("[Category]".toList ++ '\n' ::
        (c ++ '\n' :: ("[Content]".toList ++ '\n' :: body))))))) fn =
        setField (setField (setField (setField (initPost fn)
            "title".toList (pyStrip (unescapeLine t)))
            "date".toList (pyStrip (unescapeLine d)))
            "category".toList (pyStrip (unescapeLine c)))
            "content".toList
            (pyStrip (joinNl ((splitOnChar '\n' body).map unescapeLine))) := by
      unfold parseSections
      rw [hsplit, hfold, saveSection_some _ _ _ ?hne, lCt]
      case hne =>
        have h := splitOnChar_ne_nil '\n' body
        intro hmap
        exact h (List.map_eq_nil.mp hmap)
    simp only [parse_post]
    rw [hps]
    have hti : (withExcerpt (setField (setField (setField (setField (initPost fn)
        "title".toList (pyStrip (unescapeLine t)))
        "date".toList (pyStrip (unescapeLine d)))
        "category".toList (pyStrip (unescapeLine c)))
        "content".toList
        (pyStrip (joinNl ((splitOnChar '\n' body).map unescapeLine))))).title =
        pyStrip (unescapeLine t) := by
      rw [withExcerpt_title, setField_content_def, setField_category_def,
          setField_date_def, setField_title_def]
    have hda : (withExcerpt (setField (setField (setField (setField (initPost fn)
        "title".toList (pyStrip (unescapeLine t)))
        "date".toList (pyStrip (unescapeLine d)))
        "category".toList (pyStrip (unescapeLine c)))
        "content".toList
        (pyStrip (joinNl ((splitOnChar '\n' body).map unescapeLine))))).date =
        pyStrip (unescapeLine d) := by
      rw [withExcerpt_date, setField_content_def, setField_category_def,
          setField_date_def]
    have hca : (withExcerpt (setField (setField (setField (setField (initPost fn)
        "title".toList (pyStrip (unescapeLine t)))
        "date".toList (pyStrip (unescapeLine d)))
        "category".toList (pyStrip (unescapeLine c)))
        "content".toList
        (pyStrip (joinNl ((splitOnChar '\n' body).map unescapeLine))))).category =
        pyStrip (unescapeLine c) := by
      rw [withExcerpt_category, setField_content_def, setField_category_def]
    rw [if_neg]
    · rfl
    · rw [hti, hda, hca]
      rintro (h | h | h)
      · exact het h
      · exact hed h
      · exact hec h

theorem required_fields_validation_witness :
    parse_post "[Title]\n\n[Date]\n01/02/2024\n[Category]\nC".toList "w7.txt".toList = none ∧
    (parse_post ("[Title]".toList ++ '\n' :: ("My Title".toList ++ '\n' ::
      ("[Date]".toList ++ '\n' :: ("01/02/2024".toList ++ '\n' ::
      ("[Category]".toList ++ '\n' :: ("News".toList ++ '\n' ::
      ("[Content]".toList ++ '\n' :: "Some body text.".toList)))))))
      "w7.txt".toList).isSome = true := by
  constructor
  · have h := (required_fields_validation.1
      "[Title]\n\n[Date]\n01/02/2024\n[Category]\nC".toList "w7.txt".toList).mpr
    exact h (Or.inl (by rfl))
  · exact required_fields_validation.2 "My Title".toList "01/02/2024".toList
      "News".toList "Some body text.".toList "w7.txt".toList
      (by decide) (by decide) (by decide) (by rfl) (by rfl) (by rfl)
      (by decide) (by decide) (by decide) (by decide)

theorem generate_indexes_eq_some {posts : List Post}
    {ch : List (LC × List ChronoSummary)} {cat : List (LC × List CatalogSummary)}
    (h : generate_indexes posts = some (ch, cat)) :
    ch = groupFold (fun p => p.date) chronoSummary (sortPosts posts) ∧
    cat = groupFold (fun p => p.category) catalogSummary (sortPosts posts) := by
  unfold generate_indexes at h
  split at h
  · rw [Option.some_inj] at h
    obtain ⟨h1, h2⟩ := Prod.mk.injEq .. ▸ h
    exact ⟨h1.symm, h2.symm⟩
  · exact absurd h (by simp)

theorem groupAdd_join_perm {β : Type} (k : LC) (v : β) : ∀ (m : List (LC × List β)),
    ((groupAdd m k v).map Prod.snd).join.Perm ((m.map Prod.snd).join ++ [v]) := by
  intro m
  induction m with
  | nil => simp [groupAdd]
  | cons e rest ih =>
    obtain ⟨k0, vs⟩ := e
    by_cases hk : k0 = k
    · simp only [groupAdd, hk, if_true, List.map_cons, List.join_cons]
      have hstep : ([v] ++ (rest.map Prod.snd).join).Perm
          ((rest.map Prod.snd).join ++ [v]) := List.perm_append_comm
      have h2 := hstep.append_left vs
      rw [← List.append_assoc, ← List.append_assoc] at h2
      exact h2
    · simp only [groupAdd, hk, if_false, List.map_cons, List.join_cons]
      have h2 := ih.append_left vs
      rw [← List.append_assoc] at h2
      exact h2

theorem groupFold_join_perm {β : Type} (key : Post → LC) (sum : Post → β) :
    ∀ (l : List Post) (acc : List (LC × List β)),
    ((l.foldl (fun m p => groupAdd m (key p) (sum p)) acc).map Prod.snd).join.Perm
      ((acc.map Prod.snd).join ++ l.map sum) := by
  intro l
  induction l with
  | nil => intro acc; simp
  | cons p rest ih =>
    intro acc
    rw [List.foldl_cons]
    refine (ih _).trans ?_
    have h1 := (groupAdd_join_perm (key p) (sum p) acc).append_right (rest.map sum)
    refine h1.trans ?_
    rw [List.append_assoc]
    simp

theorem sortPosts_perm (posts : List Post) : (sortPosts posts).Perm posts :=
  List.perm_insertionSort postLe posts

theorem sortPosts_sorted (posts : List Post) : (sortPosts posts).Pairwise postLe :=
  List.sorted_insertionSort postLe posts

theorem groupAdd_keys {β : Type} (k : LC) (v : β) : ∀ (m : List (LC × List β)),
    (groupAdd m k v).map Prod.fst =
      if k ∈ m.map Prod.fst then m.map Prod.fst else m.map Prod.fst ++ [k] := by
  intro m
  induction m with
  | nil => simp [groupAdd]
  | cons e rest ih =>
    obtain ⟨k0, vs⟩ := e
    by_cases hk : k0 = k
    · simp [groupAdd, hk]
    · simp only [groupAdd, hk, if_false, List.map_cons, ih]
      by_cases hmem : k ∈ rest.map Prod.fst
      · rw [if_pos hmem, if_pos (by simp [hmem])]
      · rw [if_neg hmem, if_neg (by simp [hmem, Ne.symm hk])]
        simp

theorem groupFold_keys_nodup_sorted :
    ∀ (l : List Post) (acc : List (LC × List ChronoSummary)),
      l.Pairwise postLe →
      (acc.map Prod.fst).Nodup →
      (acc.map Prod.fst).Pairwise (fun a b => dateKeyD b ≤ dateKeyD a) →
      (∀ k ∈ acc.map Prod.fst, ∀ p ∈ l, dateKeyD p.date ≤ dateKeyD k) →
      ((l.foldl (fun m p => groupAdd m p.date (chronoSummary p)) acc).map Prod.fst).Nodup ∧
      ((l.foldl (fun m p => groupAdd m p.date (chronoSummary p)) acc).map
        Prod.fst).Pairwise (fun a b => dateKeyD b ≤ dateKeyD a) := by
  intro l
  induction l with
  | nil => intro acc _ h1 h2 _; exact ⟨h1, h2⟩
  | cons p rest ih =>
    intro acc hsort h1 h2 h3
    obtain ⟨hrel, htail⟩ := List.pairwise_cons.mp hsort
    rw [List.foldl_cons]
    apply ih _ htail
    · rw [groupAdd_keys]
      by_cases hmem : p.date ∈ acc.map Prod.fst
      · rw [if_pos hmem]; exact h1
      · rw [if_neg hmem]
        rw [List.nodup_append]
        exact ⟨h1, List.nodup_singleton _, by simp [List.disjoint_singleton, hmem]⟩
    · rw [groupAdd_keys]
      by_cases hmem : p.date ∈ acc.map Prod.fst
      · rw [if_pos hmem]; exact h2
      · rw [if_neg hmem]
        rw [List.pairwise_append]
        refine ⟨h2, List.pairwise_singleton _ _, ?_⟩
        intro a ha b hb
        rw [List.mem_singleton.mp hb]
        exact h3 a ha p (by simp)
    · intro k hk q hq
      rw [groupAdd_keys] at hk
      by_cases hmem : p.date ∈ acc.map Prod.fst
      · rw [if_pos hmem] at hk
        exact h3 k hk q (List.mem_cons_of_mem p hq)
      · rw [if_neg hmem] at hk
        rcases List.mem_append.mp hk with h | h
        · exact h3 k h q (List.mem_cons_of_mem p hq)
        · rw [List.mem_singleton.mp h]
          exact hrel q hq

theorem bucket_groupAdd {β : Type} (k k' : LC) (v : β) : ∀ (m : List (LC × List β)),
    bucket (groupAdd m k' v) k = bucket m k ++ (if k' = k then [v] else []) := by
  intro m
  induction m with
  | nil =>
    by_cases hk : k' = k
    · simp [groupAdd, bucket, hk]
    · simp [groupAdd, bucket, hk]
  | cons e rest ih =>
    obtain ⟨k0, vs⟩ := e
    by_cases h0 : k0 = k'
    · subst h0
      by_cases hk : k0 = k
      · simp [groupAdd, bucket, hk]
      · simp [groupAdd, bucket, hk]
    · by_cases hk : k0 = k
      · have hkk : ¬ (k = k') := fun he => h0 (by rw [hk, he])
        have hk'k : ¬ (k' = k) := fun he => h0 (by rw [hk, he])
        simp [groupAdd, bucket, hk, h0, hkk, hk'k]
      · simp only [groupAdd, h0, if_false, bucket, hk, if_false]
        exact ih

theorem bucket_groupFold {β : Type} (key : Post → LC) (sum : Post → β) (k : LC) :
    ∀ (l : List Post) (acc : List (LC × List β)),
      bucket (l.foldl (fun m p => groupAdd m (key p) (sum p)) acc) k =
        bucket acc k ++ (l.filter (fun p => decide (key p = k))).map sum := by
  intro l
  induction l with
  | nil => intro acc; simp
  | cons p rest ih =>
    intro acc
    rw [List.foldl_cons, ih, bucket_groupAdd]
    by_cases hk : key p = k
    · simp [List.filter_cons, hk]
    · simp [List.filter_cons, hk]

theorem orderedInsert_filter_key (kv : Nat) (a : Post) : ∀ (L : List Post),
    (List.orderedInsert postLe a L).filter (fun p => decide (dateKeyD p.date = kv)) =
      if dateKeyD a.date = kv then
        a :: L.filter (fun p => decide (dateKeyD p.date = kv))
      else L.filter (fun p => decide (dateKeyD p.date = kv)) := by
  intro L
  induction L with
  | nil =>
    by_cases ha : dateKeyD a.date = kv
    · simp [List.orderedInsert, ha]
    · simp [List.orderedInsert, ha]
  | cons b L' ih =>
    by_cases hr : postLe a b
    · rw [List.orderedInsert_of_le postLe L' hr]
      by_cases ha : dateKeyD a.date = kv
      · simp [List.filter_cons, ha]
      · simp [List.filter_cons, ha]
    · have hins : List.orderedInsert postLe a (b :: L') =
          b :: List.orderedInsert postLe a L' := by
        simp [List.orderedInsert, hr]
      rw [hins]
      by_cases ha : dateKeyD a.date = kv
      · have hb : ¬ (dateKeyD b.date = kv) := by
          intro heq
          exact hr (by unfold postLe; omega)
        simp [List.filter_cons, hb, ih, ha]
      · simp [List.filter_cons, ih, ha]

theorem insertionSort_filter_key (kv : Nat) : ∀ (l : List Post),
    (sortPosts l).filter (fun p => decide (dateKeyD p.date = kv)) =
      l.filter (fun p => decide (dateKeyD p.date = kv)) := by
  intro l
  induction l with
  | nil => rfl
  | cons a l' ih =>
    show (List.orderedInsert postLe a (List.insertionSort postLe l')).filter _ = _
    rw [orderedInsert_filter_key]
    by_cases ha : dateKeyD a.date = kv
    · rw [if_pos ha]
      show a :: (sortPosts l').filter _ = _
      rw [ih]
      simp [List.filter_cons, ha]
    · rw [if_neg ha]
      show (sortPosts l').filter _ = _
      rw [ih]
      simp [List.filter_cons, ha]

theorem sortPosts_filter_date (d : LC) (l : List Post) :
    (sortPosts l).filter (fun p => decide (p.date = d)) =
      l.filter (fun p => decide (p.date = d)) := by
  have habs : ∀ (m : List Post), m.filter (fun p => decide (p.date = d)) =
      (m.filter (fun p => decide (dateKeyD p.date = dateKeyD d))).filter
        (fun p => decide (p.date = d)) := by
    intro m
    rw [List.filter_filter]
    apply List.filter_congr
    intro p _
    by_cases hp : p.date = d
    · simp [hp]
    · simp [hp]
  rw [habs (sortPosts l), insertionSort_filter_key (dateKeyD d) l, ← habs l]

/-- C5 (counterexample): the two valid posts with date strings `01/05/2024`
    and `1/5/2024` — both parsing to the same calendar date — produce two
    chrono entries with equal calendar dates, so the chrono entries are not
    strictly ordered by descending calendar date. -/
theorem chrono_equal_calendar_dates_example :
    (generate_indexes [demoPost "a" "01/05/2024" "X", demoPost "b" "1/5/2024" "X"]).map
      (fun pr => pr.1.map (fun e => dateKeyD e.1)) = some [20240105, 20240105] ∧
    ¬ ([20240105, 20240105].Pairwise (fun a b : Nat => b < a)) :=
  ⟨by rfl, by decide⟩

/-- C5 (amended): for every input of valid posts, the chrono entries carry
    pairwise-distinct date strings and non-increasing calendar dates (strict
    descent can fail when two distinct date strings denote the same calendar
    date, as in the counterexample), and the multiset of posts across all
    chrono entries and across all catalog entries both equal the input
    multiset — nothing is created, dropped or duplicated. -/
theorem chrono_order_and_conservation (posts : List Post)
    (ch : List (LC × List ChronoSummary)) (cat : List (LC × List CatalogSummary))
    (h : generate_indexes posts = some (ch, cat)) :
    (ch.map Prod.fst).Nodup ∧
    ch.Pairwise (fun e1 e2 => dateKeyD e2.1 ≤ dateKeyD e1.1) ∧
    ((ch.map Prod.snd).join).Perm (posts.map chronoSummary) ∧
    ((cat.map Prod.snd).join).Perm (posts.map catalogSummary) := by
  obtain ⟨hch, hcat⟩ := generate_indexes_eq_some h
  have hsorted := sortPosts_sorted posts
  subst hch hcat
  refine ⟨?_, ?_, ?_, ?_⟩
  · exact (groupFold_keys_nodup_sorted (sortPosts posts) [] hsorted (by simp)
      (by simp) (by simp)).1
  · have := (groupFold_keys_nodup_sorted (sortPosts posts) [] hsorted (by simp)
      (by simp) (by simp)).2
    exact List.pairwise_map.mp this
  · have h1 := groupFold_join_perm (fun p => p.date) chronoSummary (sortPosts posts) []
    simp only [List.map_nil, List.join_nil, List.nil_append] at h1
    exact h1.trans ((sortPosts_perm posts).map chronoSummary)
  · have h1 := groupFold_join_perm (fun p => p.category) catalogSummary (sortPosts posts) []
    simp only [List.map_nil, List.join_nil, List.nil_append] at h1
    exact h1.trans ((sortPosts_perm posts).map catalogSummary)

theorem chrono_order_and_conservation_witness :
    ((demoChrono.map Prod.snd).join).Perm (demoPosts.map chronoSummary) ∧
    (demoChrono.map Prod.fst).Nodup := by
  have h := chrono_order_and_conservation demoPosts demoChrono demoCatalog (by rfl)
  exact ⟨h.2.2.1, h.1⟩

/-- C6: stability. For every input of valid posts, each date's chrono bucket
    lists exactly the input posts with that date string in their original
    input order (so two posts sharing a date preserve their relative input
    order); and the specification's three-post example produces chrono order
    [03/01/2024, 01/05/2024] with the two 01/05/2024 posts in input order. -/
theorem chrono_bucket_stability :
    (∀ (posts : List Post) (ch : List (LC × List ChronoSummary))
        (cat : List (LC × List CatalogSummary)),
      generate_indexes posts = some (ch, cat) →
      ∀ d, bucket ch d =
        (posts.filter (fun p => decide (p.date = d))).map chronoSummary) ∧
    generate_indexes demoPosts = some (demoChrono, demoCatalog) := by
  constructor
  · intro posts ch cat h d
    obtain ⟨hch, _⟩ := generate_indexes_eq_some h
    subst hch
    unfold groupFold
    rw [bucket_groupFold]
    show bucket ([] : List (LC × List ChronoSummary)) d ++ _ = _
    rw [sortPosts_filter_date]
    rfl
  · rfl

theorem chrono_bucket_stability_witness :
    bucket demoChrono "01/05/2024".toList =
      (demoPosts.filter (fun p => decide (p.date = "01/05/2024".toList))).map
        chronoSummary :=
  chrono_bucket_stability.1 demoPosts demoChrono demoCatalog (by rfl)
    "01/05/2024".toList

end Indexer
